import Mathlib

/-!
# cyftools: the `Cell` record (`cell_row.h`, `cell_row.cpp`) and `RadialProcessor::SetParams`

A shallow embedding of the record type of cyftools and of the operations on it:

* the packed 64-bit identity and its four accessors;
* the text-ingestion constructor `Cell::Cell(row, x_index, y_index, start_index, end_index,
  header, cellid, sampleid)`;
* the text post-processing of `printWithoutScientific`, and the value of the text it writes;
* the parameter validation of `RadialProcessor::SetParams`.

Conventions of the embedding.

* `uint32_t`/`uint64_t`/`size_t` values are natural numbers; a cast or an operation that can wrap
  is written with an explicit `% 2 ^ w`.
* A C++ `int` is an integer; where the source compares it with a `size_t` the usual arithmetic
  conversions turn it into `size_t`, which is `toSizeT`.
* `float` is an abstract type `F`, `std::strtof` an abstract function `String → F`.
* `throw`, `vector::at` out of range and a failing `assert` end the call: the functions return
  `Except CellError _`.  `assert` is taken with its checking semantics (no `NDEBUG`).
* What is written to `std::cerr` by a call that returns is returned as a list of `StderrLine`.
-/

namespace Cyftools

/-! ## Data model -/

/-- Conversion of a C++ `int` to `size_t` (64 bit): reduction modulo `2 ^ 64`. -/
def toSizeT (v : Int) : Nat := (v % 2 ^ 64).toNat

/-- The range of a C++ `int` (32 bit, two's complement). -/
def IsCInt (v : Int) : Prop := -2 ^ 31 ≤ v ∧ v < 2 ^ 31

instance (v : Int) : Decidable (IsCInt v) := by unfold IsCInt; infer_instance

/-- Modelled from the spec: the column categories of `cell_header.h`, which is not among the
sources (`Tag::MA_TAG` is the feature/marker category). -/
inductive TagType where
  | MA_TAG
  | CA_TAG
  | GA_TAG
  deriving DecidableEq, Repr

/-- Modelled from the spec: the column descriptor `Tag` of `cell_header.h` (a name and a
category); the header file is not among the sources. -/
structure Tag where
  type : TagType
  id : String
  deriving DecidableEq, Repr

/-- Modelled from the spec: the schema `CellHeader` of `cell_header.h`, reduced to the ordered
sequence of column descriptors that `GetDataTags()` returns. -/
structure CellHeader where
  tags : List Tag
  deriving DecidableEq, Repr

/-- Modelled from the spec: `CellHeader::GetDataTags()`, the declared columns in order. -/
def CellHeader.GetDataTags (h : CellHeader) : List Tag := h.tags

/-- The fields of `class Cell` (`cell_row.h`): `uint64_t id`, `cy_uint pflag`, `cy_uint cflag`,
`float x`, `float y`, `std::vector<float> cols`. -/
structure Cell (F : Type) where
  id : Nat
  pflag : Nat
  cflag : Nat
  x : F
  y : F
  cols : List F
  deriving DecidableEq, Repr

/-- The ways a call can end without returning. -/
inductive CellError where
  | runtime_error (what : String)
  | assert_failed
  | out_of_range
  | undefined_behavior
  deriving DecidableEq, Repr

/-- Lines written to `std::cerr` by the ingestion constructor when it returns. -/
inductive StderrLine where
  | shortfall (read : Nat) (declared : Nat)
  deriving DecidableEq, Repr

variable {F : Type}

/-! ## Packed identity (`cell_row.cpp`, lines 67-83) -/

/-- `Cell::set_sample_id`: `id = static_cast<uint64_t>(new_id) << 32 | currentCellID` with
`currentCellID = static_cast<uint32_t>(id & 0xFFFFFFFF)`. -/
def Cell.set_sample_id (c : Cell F) (new_id : Nat) : Cell F :=
  let currentCellID := (c.id &&& 0xFFFFFFFF) % 2 ^ 32
  { c with id := (new_id <<< 32) % 2 ^ 64 ||| currentCellID }

/-- `Cell::set_cell_id`: `id = static_cast<uint64_t>(currentSampleID) << 32 | new_id` with
`currentSampleID = static_cast<uint32_t>(id >> 32)`. -/
def Cell.set_cell_id (c : Cell F) (new_id : Nat) : Cell F :=
  let currentSampleID := (c.id >>> 32) % 2 ^ 32
  { c with id := (currentSampleID <<< 32) % 2 ^ 64 ||| new_id }

/-- `Cell::get_sample_id`: `static_cast<uint32_t>(id >> 32)`. -/
def Cell.get_sample_id (c : Cell F) : Nat := (c.id >>> 32) % 2 ^ 32

/-- `Cell::get_cell_id`: `static_cast<uint32_t>(id & 0xFFFFFFFF)`. -/
def Cell.get_cell_id (c : Cell F) : Nat := (c.id &&& 0xFFFFFFFF) % 2 ^ 32

/-! ## Text ingestion (`cell_row.cpp`, lines 175-242) -/

/-- `std::vector::at`: the element at `i`, or `std::out_of_range`. -/
def vecAt {α : Type} (v : List α) (i : Nat) : Except CellError α :=
  match v[i]? with
  | some a => .ok a
  | none => .error .out_of_range

/-- The `while (i < tokens.size())` loop of the constructor (lines 214-236), from the loop
counter `i` and the feature vector `cols` built so far; it returns the final counter and vector.
The comparisons of the `size_t` counter with the `int` positions are made in `size_t`.
Inside the loop `tokens.at(i)` cannot throw, `i` being below `tokens.size()`. -/
def markerLoop (tokens : List String) (strtof : String → F)
    (x_index y_index start_index end_index : Int) (i : Nat) (cols : List F) : Nat × List F :=
  if h : i < tokens.length then
    if i < toSizeT start_index ∨ i > toSizeT end_index ∨ i = toSizeT x_index ∨
        i = toSizeT y_index then
      markerLoop tokens strtof x_index y_index start_index end_index (i + 1) cols
    else
      markerLoop tokens strtof x_index y_index start_index end_index (i + 1)
        (cols ++ [strtof tokens[i]])
  else
    (i, cols)
termination_by tokens.length - i

/-- The message of the exception thrown for a row of fewer than three fields. -/
def tooFewColumns : CellError :=
  .runtime_error "CSV file should have at least three columns: id, x, y"

/-- The ingestion constructor `Cell::Cell(row, x_index, y_index, start_index, end_index, header,
cellid, sampleid)`.  `tokenize` is `tokenize_comma_delimited` (declared in `cell_utils.h`, not
among the sources) and `strtof` is `std::strtof`.  The result is the record and what was written
to `std::cerr`. -/
def Cell.ofRow [Zero F] (tokenize : String → List String) (strtof : String → F)
    (row : String) (x_index y_index start_index end_index : Int) (header : CellHeader)
    (cellid sampleid : Nat) : Except CellError (Cell F × List StderrLine) :=
  let tokens := tokenize row
  if tokens.length < 3 then
    .error tooFewColumns
  else if toSizeT x_index ≥ tokens.length ∨ toSizeT y_index ≥ tokens.length ∨
      toSizeT start_index ≥ tokens.length then
    .error .assert_failed
  else
    let c : Cell F := { id := 0, pflag := 0, cflag := 0, x := 0, y := 0, cols := [] }
    let c := c.set_sample_id sampleid
    let c := c.set_cell_id cellid
    match vecAt tokens (toSizeT x_index) with
    | .error e => .error e
    | .ok tx =>
      let c := { c with x := strtof tx }
      match vecAt tokens (toSizeT y_index) with
      | .error e => .error e
      | .ok ty =>
        let c := { c with y := strtof ty }
        let num_cols := header.GetDataTags.length
        let r := markerLoop tokens strtof x_index y_index start_index end_index 0 c.cols
        let i := r.1
        let c := { c with cols := r.2 }
        let err := if i < num_cols then [StderrLine.shortfall i num_cols] else []
        .ok (c, err)

/-! ### Concrete collaborators for the worked instances -/

/-- Splitting at commas, one character at a time (`cur` is the current field, reversed). -/
def splitAux : List Char → List Char → List String
  | [], cur => [String.mk cur.reverse]
  | c :: cs, cur =>
    if c = ',' then String.mk cur.reverse :: splitAux cs [] else splitAux cs (c :: cur)

/-- A plain comma tokenizer, standing for `tokenize_comma_delimited` in the worked instances. -/
def commaFields (row : String) : List String := splitAux row.data []

/-- The value of the leading run of decimal digits (`acc` is the value read so far). -/
def leadingDigits : List Char → Nat → Nat
  | [], acc => acc
  | c :: cs, acc =>
    if c.isDigit then leadingDigits cs (acc * 10 + (c.toNat - 48)) else acc

/-- What `std::strtof` reads from a field that is an unsigned integer (and `0` from a field that
does not start with a digit); it stands for `std::strtof` in the worked instances. -/
def strtofNat (s : String) : Nat := leadingDigits s.data 0

/-- The marker fields as the specification words them: the parses of the fields at the zero-based
positions `i` with `start_index ≤ i ≤ end_index`, `i ≠ x_index`, `i ≠ y_index`, in increasing
position order. -/
def markerFieldsSpec (tokens : List String) (strtof : String → F)
    (x_index y_index start_index end_index : Int) : List F :=
  ((List.range tokens.length).filter (fun (i : Nat) =>
      decide (start_index ≤ (i : Int) ∧ (i : Int) ≤ end_index ∧ (i : Int) ≠ x_index ∧
        (i : Int) ≠ y_index))).map (fun i => strtof (tokens.getD i ""))

/-- The fields that pass the guard of line 229, in position order, parsed. -/
def keptFields (tokens : List String) (strtof : String → F)
    (x_index y_index start_index end_index : Int) : List F :=
  ((List.range' 0 tokens.length).filter (fun j =>
    decide (¬ (j < toSizeT start_index ∨ j > toSizeT end_index ∨ j = toSizeT x_index ∨
      j = toSizeT y_index)))).map (fun j => strtof (tokens.getD j ""))

/-- A cell whose id has all 64 bits set, for the worked instances. -/
def fullCell : Cell Nat :=
  { id := 2 ^ 64 - 1, pflag := 1, cflag := 2, x := 3, y := 4, cols := [5] }

/-! ## Rendering of feature values (`cell_row.cpp`, lines 6-26) -/

/-- `std::string::npos`, the largest `size_t`. -/
def npos : Nat := 2 ^ 64 - 1

/-- `std::string::find_last_not_of(ch)`: the index of the last character different from `ch`,
or `npos` when there is none. -/
def find_last_not_of (s : List Char) (ch : Char) : Nat :=
  match s.reverse.dropWhile (fun c => c == ch) with
  | [] => npos
  | _ :: rest => rest.length

/-- `std::string::find(ch)`: the index of the first `ch`, or `npos` when there is none. -/
def strFind (s : List Char) (ch : Char) : Nat :=
  if s.indexOf ch < s.length then s.indexOf ch else npos

/-- `std::string::erase(pos, npos)` and `erase(pos)`: everything from `pos` on is removed;
`std::out_of_range` when `pos > size()`. -/
def strErase (s : List Char) (pos : Nat) : Except CellError (List Char) :=
  if pos > s.length then .error .out_of_range else .ok (s.take pos)

/-- The text that `printWithoutScientific(number, round)` writes to `std::cout`, as a function
of `text = std::to_string(number)` (the `%f` text of the number) and of `round`.  The position
arithmetic is `size_t` arithmetic: `npos + 1` wraps to `0` and the `int` `round` is converted.
`out.back()` on an empty string is undefined behaviour. -/
def printWithoutScientific (text : List Char) (round : Int) : Except CellError (List Char) :=
  match strErase text ((find_last_not_of text '0' + 1) % 2 ^ 64) with
  | .error e => .error e
  | .ok out =>
    let decimalPos := strFind out '.'
    let cut := (decimalPos + toSizeT round + 1) % 2 ^ 64
    match (if decimalPos ≠ npos ∧ out.length > cut then strErase out cut else .ok out) with
    | .error e => .error e
    | .ok out =>
      match out.getLast? with
      | none => .error .undefined_behavior
      | some b => .ok (if b = '.' then out.dropLast else out)

/-- A digit string without its trailing zeros. -/
def dropTrailingZeros (ds : List Char) : List Char :=
  (ds.reverse.dropWhile (fun c => c == '0')).reverse

/-- The rendering as the specification words it, for the fixed-notation text `ip ++ "." ++ fs`
(`ip` the sign and integer digits, `fs` the fractional digits): the text first truncated to at
most `k` digits after the decimal point, then stripped of trailing zeros and of a decimal point
left with no digits after it. -/
def truncateThenStrip (ip fs : List Char) (k : Nat) : List Char :=
  let t := dropTrailingZeros (fs.take k)
  if t = [] then ip else ip ++ '.' :: t

/-- The same two steps in the other order: the fractional digits first stripped of trailing
zeros, then truncated to at most `k` digits; a decimal point left with no digits after it is
removed. -/
def stripThenTruncate (ip fs : List Char) (k : Nat) : List Char :=
  let t := (dropTrailingZeros fs).take k
  if t = [] then ip else ip ++ '.' :: t

/-! ## Re-parsing a written value -/

/-- The value of a decimal digit character. -/
def digitValue (c : Char) : Nat := c.toNat - 48

/-- The value of a string of integer digits. -/
def intValue (ds : List Char) : Nat := ds.foldl (fun a c => a * 10 + digitValue c) 0

/-- The value of a string of fractional digits (the digits after the decimal point). -/
def fracValue : List Char → ℚ
  | [] => 0
  | c :: cs => ((digitValue c : ℚ) + fracValue cs) / 10

/-- The value of an unsigned decimal text: integer digits, then optionally a decimal point and
fractional digits. -/
def parseUnsigned (s : List Char) : ℚ :=
  (intValue (s.takeWhile (fun c => c != '.')) : ℚ) +
    fracValue ((s.dropWhile (fun c => c != '.')).drop 1)

/-- Re-parsing a written text as a decimal number, with an optional leading minus sign. -/
def parseDecimal (s : List Char) : ℚ :=
  if s.head? = some '-' then - parseUnsigned s.tail else parseUnsigned s

/-- The `%f` text of a number: an optional minus sign, integer digits, a decimal point and
fractional digits. -/
def fixedText (neg : Bool) (ds fs : List Char) : List Char :=
  (if neg then ['-'] else []) ++ ds ++ '.' :: fs

/-! ## Radial band parameters (`cell_processor.h`, lines 360-376) -/

/-- The private members of `RadialProcessor`. -/
structure RadialProcessor where
  m_inner : List Nat
  m_outer : List Nat
  m_logor : List Nat
  m_logand : List Nat
  m_label : List String
  deriving DecidableEq, Repr

/-- `RadialProcessor::SetParams`: five `assert`s, then the five assignments. -/
def RadialProcessor.SetParams (p : RadialProcessor) (inner outer logor logand : List Nat)
    (label : List String) : Except CellError RadialProcessor :=
  if inner.length = 0 then .error .assert_failed
  else if inner.length ≠ outer.length then .error .assert_failed
  else if inner.length ≠ logor.length then .error .assert_failed
  else if inner.length ≠ logand.length then .error .assert_failed
  else if inner.length ≠ label.length then .error .assert_failed
  else
    let p := { p with m_inner := inner }
    let p := { p with m_outer := outer }
    let p := { p with m_logor := logor }
    let p := { p with m_logand := logand }
    let p := { p with m_label := label }
    .ok p

/-! ## Helper lemmas -/

theorem low_mask_eq_mod (a : Nat) : a &&& 0xFFFFFFFF = a % 4294967296 := by
  have h := Nat.and_pow_two_sub_one_eq_mod a 32
  simpa using h

theorem shl32_or (a b : Nat) (hb : b < 4294967296) :
    (a <<< 32) % 18446744073709551616 ||| b = (a % 4294967296) * 4294967296 + b := by
  have h1 : (a <<< 32) % 18446744073709551616 = 2 ^ 32 * (a % 4294967296) := by
    rw [Nat.shiftLeft_eq]; norm_num; omega
  rw [h1, ← Nat.mul_add_lt_is_or (by simpa using hb)]
  norm_num; omega

theorem toSizeT_of_nonneg {v : Int} (h0 : 0 ≤ v) (h1 : v < 2 ^ 64) : toSizeT v = v.toNat := by
  unfold toSizeT
  rw [Int.emod_eq_of_lt h0 h1]

theorem toSizeT_of_neg {v : Int} (h0 : v < 0) (h1 : -2 ^ 64 ≤ v) :
    toSizeT v = (v + 2 ^ 64).toNat := by
  unfold toSizeT
  have h : v % 2 ^ 64 = v + 2 ^ 64 := by
    rw [← Int.add_emod_self]
    exact Int.emod_eq_of_lt (by omega) (by omega)
  rw [h]

/-- The loop, started at `i` with `k` fields left, appends to `cols` the parses of the fields at
the positions from `i` on that pass the guard of line 229, and ends with the counter at
`tokens.size()`. -/
theorem markerLoop_eq (tokens : List String) (strtof : String → F) (x y s e : Int) :
    ∀ (k i : Nat) (cols : List F), i + k = tokens.length →
      markerLoop tokens strtof x y s e i cols =
        (tokens.length, cols ++ ((List.range' i k).filter (fun j =>
          decide (¬ (j < toSizeT s ∨ j > toSizeT e ∨ j = toSizeT x ∨ j = toSizeT y)))).map
            (fun j => strtof (tokens.getD j ""))) := by
  intro k
  induction k with
  | zero =>
    intro i cols h
    rw [markerLoop]
    simp at h
    simp [h]
  | succ k ih =>
    intro i cols h
    have hi : i < tokens.length := by omega
    rw [markerLoop]
    by_cases hc : i < toSizeT s ∨ i > toSizeT e ∨ i = toSizeT x ∨ i = toSizeT y
    · rw [dif_pos hi, if_pos hc, ih (i + 1) cols (by omega), List.range'_succ,
        List.filter_cons_of_neg (by rw [decide_eq_true_eq]; exact not_not.mpr hc)]
    · rw [dif_pos hi, if_neg hc, ih (i + 1) _ (by omega), List.range'_succ,
        List.filter_cons_of_pos (by rw [decide_eq_true_eq]; exact hc), List.map_cons,
        List.getD_eq_getElem _ _ hi, List.append_assoc, List.singleton_append]

theorem vecAt_of_lt {α : Type} [Inhabited α] (v : List α) (i : Nat) (d : α) (h : i < v.length) :
    vecAt v i = .ok (v.getD i d) := by
  simp [vecAt, List.getElem?_eq_getElem h, List.getD_eq_getElem _ _ h]

theorem dropWhile_append_cons_of_neg {α : Type} (p : α → Bool) (b : α) (hb : p b = false) :
    ∀ (A B : List α), (A ++ b :: B).dropWhile p = A.dropWhile p ++ b :: B := by
  intro A B
  induction A with
  | nil => simp [List.dropWhile_cons, hb]
  | cons a A ih =>
    by_cases ha : p a = true
    · simp [List.dropWhile_cons, ha, ih]
    · simp [List.dropWhile_cons, ha]

/-- What `dropTrailingZeros` removes is a suffix. -/
theorem dropTrailingZeros_take (fs : List Char) :
    fs.take (dropTrailingZeros fs).length = dropTrailingZeros fs := by
  have h := List.takeWhile_append_dropWhile (fun c => c == '0') fs.reverse
  have h2 : fs = dropTrailingZeros fs ++ (fs.reverse.takeWhile (fun c => c == '0')).reverse := by
    have := congrArg List.reverse h
    rw [List.reverse_append, List.reverse_reverse] at this
    exact this.symm
  have h3 := List.take_left (dropTrailingZeros fs)
    (fs.reverse.takeWhile (fun c => c == '0')).reverse
  rw [← h2] at h3
  exact h3

theorem dropTrailingZeros_length_le (fs : List Char) :
    (dropTrailingZeros fs).length ≤ fs.length := by
  have h := congrArg List.length (dropTrailingZeros_take fs)
  rw [List.length_take] at h
  omega

/-- In a text with a decimal point the last character other than `'0'` is the point or a
fractional digit. -/
theorem find_last_not_of_text (ip fs : List Char) :
    find_last_not_of (ip ++ '.' :: fs) '0' = ip.length + (dropTrailingZeros fs).length := by
  unfold find_last_not_of dropTrailingZeros
  have hr : (ip ++ '.' :: fs).reverse = fs.reverse ++ '.' :: ip.reverse := by simp
  rw [hr, dropWhile_append_cons_of_neg _ _ (by decide)]
  cases h : fs.reverse.dropWhile (fun c => c == '0') with
  | nil => simp
  | cons a t => simp; omega

theorem strFind_text (ip ds : List Char) (hdot : '.' ∉ ip) :
    strFind (ip ++ '.' :: ds) '.' = ip.length := by
  unfold strFind
  rw [List.indexOf_append_of_not_mem hdot, List.indexOf_cons_self]
  simp

/-- The text written by `printWithoutScientific` for a text with one decimal point. -/
theorem printWithoutScientific_eq (ip fs : List Char) (round : Int)
    (hip : '.' ∉ ip) (hfs : '.' ∉ fs) (h0 : 0 ≤ round) (hr : IsCInt round)
    (hlen : ip.length + fs.length < 2 ^ 63) :
    printWithoutScientific (ip ++ '.' :: fs) round =
      .ok (stripThenTruncate ip fs round.toNat) := by
  have hz := dropTrailingZeros_length_le fs
  have hrn : toSizeT round = round.toNat := toSizeT_of_nonneg h0 (by have := hr.2; omega)
  have hr2 : round.toNat < 2 ^ 31 := by have := hr.2; omega
  norm_num at hlen hr2
  unfold printWithoutScientific
  have e1 : strErase (ip ++ '.' :: fs) ((find_last_not_of (ip ++ '.' :: fs) '0' + 1) % 2 ^ 64)
      = .ok (ip ++ '.' :: dropTrailingZeros fs) := by
    rw [find_last_not_of_text, Nat.mod_eq_of_lt (by norm_num; omega)]
    unfold strErase
    rw [if_neg (by simp; omega)]
    have : ip.length + (dropTrailingZeros fs).length + 1
        = ip.length + ((dropTrailingZeros fs).length + 1) := by omega
    rw [this, List.take_append, List.take_succ_cons, dropTrailingZeros_take]
  rw [e1]
  simp only
  rw [strFind_text ip _ hip, hrn, Nat.mod_eq_of_lt (by norm_num; omega)]
  have e2 : (if ip.length ≠ npos ∧ (ip ++ '.' :: dropTrailingZeros fs).length >
        ip.length + round.toNat + 1 then
        strErase (ip ++ '.' :: dropTrailingZeros fs) (ip.length + round.toNat + 1)
      else .ok (ip ++ '.' :: dropTrailingZeros fs))
      = .ok (ip ++ '.' :: (dropTrailingZeros fs).take round.toNat) := by
    have : ip.length + round.toNat + 1 = ip.length + (round.toNat + 1) := by omega
    split
    · rename_i h
      unfold strErase
      rw [if_neg (by omega), this, List.take_append, List.take_succ_cons]
    · rename_i h
      have hn : ip.length ≠ npos := by unfold npos; omega
      have hle : (dropTrailingZeros fs).length ≤ round.toNat := by
        simp [hn] at h
        omega
      rw [List.take_of_length_le hle]
  rw [e2]
  simp only
  unfold stripThenTruncate
  cases ht : List.take round.toNat (dropTrailingZeros fs) with
  | nil => simp
  | cons a t =>
    have hmem : ∀ c ∈ List.take round.toNat (dropTrailingZeros fs), c ≠ '.' := by
      intro c hc hcd
      have h1 := List.mem_of_mem_take hc
      rw [← dropTrailingZeros_take fs] at h1
      exact hfs (hcd ▸ List.mem_of_mem_take h1)
    rw [ht] at hmem
    have hne : a :: t ≠ [] := by simp
    have hl : (ip ++ '.' :: a :: t).getLast? = some ((a :: t).getLast hne) := by
      rw [List.getLast?_append_cons, List.getLast?_cons_cons, List.getLast?_eq_getLast _ hne]
    rw [hl]
    simp only
    rw [if_neg (hmem _ (List.getLast_mem hne))]
    simp

/-- The text `stripThenTruncate` never ends in a decimal point. -/
theorem stripThenTruncate_getLast (ip fs : List Char) (k : Nat)
    (hip : '.' ∉ ip) (hfs : '.' ∉ fs) :
    (stripThenTruncate ip fs k).getLast? ≠ some '.' := by
  unfold stripThenTruncate
  cases ht : List.take k (dropTrailingZeros fs) with
  | nil =>
    simp only [if_true]
    intro h
    exact hip (List.mem_of_getLast?_eq_some h)
  | cons a t =>
    have hne : a :: t ≠ [] := by simp
    simp only [hne, if_false]
    rw [List.getLast?_append_cons, List.getLast?_cons_cons]
    intro h
    have h1 : '.' ∈ List.take k (dropTrailingZeros fs) := by
      rw [ht]; exact List.mem_of_getLast?_eq_some h
    have h2 := List.mem_of_mem_take h1
    rw [← dropTrailingZeros_take fs] at h2
    exact hfs (List.mem_of_mem_take h2)

/-! ## Packed identity: theorems -/

/-- C1: for every cell, whatever its current id, and every pair of 32-bit values
`(group, item)`, after `set_sample_id(group)` followed by `set_cell_id(item)`,
`get_sample_id()` returns `group` and `get_cell_id()` returns `item`. -/
theorem C1_identity_round_trip (c : Cell F) (group item : Nat)
    (hg : group < 2 ^ 32) (hi : item < 2 ^ 32) :
    ((c.set_sample_id group).set_cell_id item).get_sample_id = group ∧
    ((c.set_sample_id group).set_cell_id item).get_cell_id = item := by
  simp only [Cell.set_sample_id, Cell.set_cell_id, Cell.get_sample_id, Cell.get_cell_id,
    low_mask_eq_mod, Nat.shiftRight_eq_div_pow]
  norm_num at hg hi ⊢
  rw [shl32_or _ _ (Nat.mod_lt _ (by norm_num)), shl32_or _ _ hi]
  omega

/-- C1, at a concrete cell: group `0xFFFFFFFF` and item `5` written over a full id. -/
theorem C1_identity_round_trip_witness :
    (4294967295 < 2 ^ 32 ∧ 5 < 2 ^ 32) ∧
    ((fullCell.set_sample_id 4294967295).set_cell_id 5).get_sample_id = 4294967295 ∧
    ((fullCell.set_sample_id 4294967295).set_cell_id 5).get_cell_id = 5 :=
  ⟨by decide, C1_identity_round_trip fullCell 4294967295 5 (by decide) (by decide)⟩

/-- C10: for every 64-bit identity and all 32-bit `v`, `g`, `i`: `set_sample_id(v)` leaves the
low 32 bits (so `get_cell_id()`) unchanged, `set_cell_id(v)` leaves the high 32 bits (so
`get_sample_id()`) unchanged, neither touches `pflag`, `cflag`, `x`, `y` or `cols`, the two
setters commute, and each setter is last-write-wins. -/
theorem C10_setters_frame (c : Cell F) (v g i : Nat) (hid : c.id < 2 ^ 64)
    (hv : v < 2 ^ 32) (hi : i < 2 ^ 32) :
    ((c.set_sample_id v).id % 2 ^ 32 = c.id % 2 ^ 32 ∧
      (c.set_sample_id v).get_cell_id = c.get_cell_id) ∧
    ((c.set_cell_id v).id / 2 ^ 32 = c.id / 2 ^ 32 ∧
      (c.set_cell_id v).get_sample_id = c.get_sample_id) ∧
    ((c.set_sample_id v).pflag = c.pflag ∧ (c.set_sample_id v).cflag = c.cflag ∧
      (c.set_sample_id v).x = c.x ∧ (c.set_sample_id v).y = c.y ∧
      (c.set_sample_id v).cols = c.cols) ∧
    ((c.set_cell_id v).pflag = c.pflag ∧ (c.set_cell_id v).cflag = c.cflag ∧
      (c.set_cell_id v).x = c.x ∧ (c.set_cell_id v).y = c.y ∧
      (c.set_cell_id v).cols = c.cols) ∧
    (c.set_sample_id g).set_cell_id i = (c.set_cell_id i).set_sample_id g ∧
    (c.set_sample_id v).set_sample_id g = c.set_sample_id g ∧
    (c.set_cell_id v).set_cell_id i = c.set_cell_id i := by
  have hm : ∀ a : Nat, a % 4294967296 < 4294967296 := fun a => Nat.mod_lt _ (by norm_num)
  simp only [Cell.set_sample_id, Cell.set_cell_id, Cell.get_sample_id, Cell.get_cell_id,
    low_mask_eq_mod, Nat.shiftRight_eq_div_pow, Cell.mk.injEq, and_true, true_and]
  norm_num at hid hv hi ⊢
  simp only [shl32_or _ _ (hm _), shl32_or _ _ hv, shl32_or _ _ hi]
  omega

/-- C10, at a concrete cell: the setters commute on a cell whose id has all 64 bits set. -/
theorem C10_setters_frame_witness :
    (fullCell.id < 2 ^ 64 ∧ 8 < 2 ^ 32 ∧ 9 < 2 ^ 32) ∧
    (fullCell.set_sample_id 7).set_cell_id 9 = (fullCell.set_cell_id 9).set_sample_id 7 :=
  ⟨by decide,
    (C10_setters_frame fullCell 8 7 9 (by decide) (by decide) (by decide)).2.2.2.2.1⟩

/-- The constructor on a row that passes both checks: the record it builds and what it writes
to `std::cerr`. -/
theorem ofRow_of_checks [Zero F] (tokenize : String → List String) (strtof : String → F)
    (row : String) (x y s e : Int) (header : CellHeader) (cellid sampleid : Nat)
    (hn : 3 ≤ (tokenize row).length) (hx : toSizeT x < (tokenize row).length)
    (hy : toSizeT y < (tokenize row).length) (hs : toSizeT s < (tokenize row).length) :
    Cell.ofRow tokenize strtof row x y s e header cellid sampleid =
      .ok ({ id := ((({ id := 0, pflag := 0, cflag := 0, x := 0, y := 0, cols := [] } :
                Cell F).set_sample_id sampleid).set_cell_id cellid).id,
             pflag := 0, cflag := 0,
             x := strtof ((tokenize row).getD (toSizeT x) ""),
             y := strtof ((tokenize row).getD (toSizeT y) ""),
             cols := keptFields (tokenize row) strtof x y s e },
           if (tokenize row).length < header.GetDataTags.length then
             [StderrLine.shortfall (tokenize row).length header.GetDataTags.length]
           else []) := by
  unfold Cell.ofRow
  have h1 : ¬ (tokenize row).length < 3 := by omega
  have h2 : ¬ (toSizeT x ≥ (tokenize row).length ∨ toSizeT y ≥ (tokenize row).length ∨
      toSizeT s ≥ (tokenize row).length) := by omega
  simp only [if_neg h1, if_neg h2, vecAt_of_lt _ _ "" hx, vecAt_of_lt _ _ "" hy,
    markerLoop_eq (tokenize row) strtof x y s e (tokenize row).length 0 _ (by omega)]
  simp [Cell.set_sample_id, Cell.set_cell_id, keptFields]

/-- The constructor on a row of at least three fields that fails the bounds check. -/
theorem ofRow_of_out_of_bounds [Zero F] (tokenize : String → List String) (strtof : String → F)
    (row : String) (x y s e : Int) (header : CellHeader) (cellid sampleid : Nat)
    (hn : 3 ≤ (tokenize row).length)
    (hb : (tokenize row).length ≤ toSizeT x ∨ (tokenize row).length ≤ toSizeT y ∨
      (tokenize row).length ≤ toSizeT s) :
    Cell.ofRow tokenize strtof row x y s e header cellid sampleid = .error .assert_failed := by
  unfold Cell.ofRow
  have h1 : ¬ (tokenize row).length < 3 := by omega
  simp only [if_neg h1, ge_iff_le, if_pos hb]

/-- A position is within the field count `n` exactly when its `size_t` image is below `n`. -/
theorem toSizeT_lt_iff {v : Int} {n : Nat} (hv : IsCInt v) (hn : n < 2 ^ 63) :
    toSizeT v < n ↔ (0 ≤ v ∧ v < n) := by
  obtain ⟨h1, h2⟩ := hv
  by_cases h0 : 0 ≤ v
  · rw [toSizeT_of_nonneg h0 (by omega)]
    omega
  · rw [toSizeT_of_neg (by omega) (by omega)]
    omega

/-! ## Text ingestion: theorems -/

/-- C4: the constructor throws the "at least three columns" error exactly when the row has fewer
than three fields, whatever the positions, header and ids: a shorter row yields no record, and a
row of three or more fields never fails for this reason. -/
theorem C4_min_field_count [Zero F] (tokenize : String → List String) (strtof : String → F)
    (row : String) (x_index y_index start_index end_index : Int) (header : CellHeader)
    (cellid sampleid : Nat) :
    (Cell.ofRow tokenize strtof row x_index y_index start_index end_index header cellid sampleid
        = .error tooFewColumns) ↔ (tokenize row).length < 3 := by
  unfold Cell.ofRow
  constructor
  · intro h
    by_contra hn
    simp only [if_neg hn] at h
    split at h
    · simp [tooFewColumns] at h
    · split at h
      · rename_i e he
        simp only [vecAt] at he
        split at he <;> simp_all [tooFewColumns]
      · split at h
        · rename_i e he
          simp only [vecAt] at he
          split at he <;> simp_all [tooFewColumns]
        · simp at h
  · intro h
    simp only [if_pos h]

/-- C3, as stated, fails: on the four-field row `7,1,2,3` with `x_index = 1`, `y_index = 2`,
`start_index = 3` and `end_index = 9` (not within the field count) the constructor returns a
record. -/
theorem C3_end_index_unchecked :
    3 ≤ (commaFields "7,1,2,3").length ∧
    ¬ ((9 : Int) < ((commaFields "7,1,2,3").length : Int)) ∧
    Cell.ofRow commaFields strtofNat "7,1,2,3" 1 2 3 9 ⟨[⟨.MA_TAG, "m1"⟩]⟩ 7 0 =
      .ok ({ id := 7, pflag := 0, cflag := 0, x := 1, y := 2, cols := [3] }, []) := by
  refine ⟨by decide, by decide, ?_⟩
  rw [ofRow_of_checks _ _ _ _ _ _ _ _ _ _ (by decide) (by decide) (by decide) (by decide)]
  rfl

/-- C3, amended: for every row of `n ≥ 3` fields and all `int` positions, the constructor fails
fatally (assertion failure, no record) whenever `x_index`, `y_index` or `start_index` is negative
or `≥ n`; when these three are within the field count it returns a record, whatever `end_index`
is. -/
theorem C3_bounds_check [Zero F] (tokenize : String → List String) (strtof : String → F)
    (row : String) (x_index y_index start_index end_index : Int) (header : CellHeader)
    (cellid sampleid : Nat)
    (hn3 : 3 ≤ (tokenize row).length) (hn : (tokenize row).length < 2 ^ 63)
    (hx : IsCInt x_index) (hy : IsCInt y_index) (hs : IsCInt start_index) :
    ((x_index < 0 ∨ ((tokenize row).length : Int) ≤ x_index ∨
      y_index < 0 ∨ ((tokenize row).length : Int) ≤ y_index ∨
      start_index < 0 ∨ ((tokenize row).length : Int) ≤ start_index) →
        Cell.ofRow tokenize strtof row x_index y_index start_index end_index header cellid
          sampleid = .error .assert_failed) ∧
    (¬ (x_index < 0 ∨ ((tokenize row).length : Int) ≤ x_index ∨
      y_index < 0 ∨ ((tokenize row).length : Int) ≤ y_index ∨
      start_index < 0 ∨ ((tokenize row).length : Int) ≤ start_index) →
        ∃ c w, Cell.ofRow tokenize strtof row x_index y_index start_index end_index header
          cellid sampleid = .ok (c, w)) := by
  have ex := toSizeT_lt_iff hx hn
  have ey := toSizeT_lt_iff hy hn
  have es := toSizeT_lt_iff hs hn
  constructor
  · intro h
    apply ofRow_of_out_of_bounds _ _ _ _ _ _ _ _ _ _ hn3
    omega
  · intro h
    exact ⟨_, _, ofRow_of_checks _ _ _ _ _ _ _ _ _ _ hn3 (by omega) (by omega) (by omega)⟩

/-- C3, amended, at a concrete row: `7,1,2,3` with `start_index = 4` fails the assertion. -/
theorem C3_bounds_check_witness :
    (3 ≤ (commaFields "7,1,2,3").length ∧ ((commaFields "7,1,2,3").length : Int) ≤ 4) ∧
    Cell.ofRow commaFields strtofNat "7,1,2,3" 1 2 4 9 ⟨[⟨.MA_TAG, "m1"⟩]⟩ 7 0 =
      .error .assert_failed :=
  ⟨by decide,
    (C3_bounds_check commaFields strtofNat "7,1,2,3" 1 2 4 9 ⟨[⟨.MA_TAG, "m1"⟩]⟩ 7 0
      (by decide) (by decide) (by decide) (by decide) (by decide)).1 (by decide)⟩

/-- C5, as stated, fails: the row `7,1,2,3` with `x_index = 1`, `y_index = 2`,
`start_index = 3` is accepted with `end_index = -1`; no position `i` has `3 ≤ i ≤ -1`, yet the
field at position 3 is stored in `cols`. -/
theorem C5_negative_end_index :
    Cell.ofRow commaFields strtofNat "7,1,2,3" 1 2 3 (-1) ⟨[⟨.MA_TAG, "m1"⟩]⟩ 7 0 =
      .ok ({ id := 7, pflag := 0, cflag := 0, x := 1, y := 2, cols := [3] }, []) ∧
    markerFieldsSpec (commaFields "7,1,2,3") strtofNat 1 2 3 (-1) = [] := by
  refine ⟨?_, by decide⟩
  rw [ofRow_of_checks _ _ _ _ _ _ _ _ _ _ (by decide) (by decide) (by decide) (by decide)]
  rfl

/-- C5, amended: for every row accepted by the constructor (at least three fields, `x_index`,
`y_index` and `start_index` within the field count) and every `end_index ≥ 0`, the feature
vector `cols` is exactly the sequence, in increasing position order, of the parses of the fields
at the positions `i` with `start_index ≤ i ≤ end_index`, `i ≠ x_index`, `i ≠ y_index`, and `x`
and `y` are the parses of the fields at `x_index` and `y_index`. -/
theorem C5_cols_are_marker_fields [Zero F] (tokenize : String → List String)
    (strtof : String → F) (row : String) (x_index y_index start_index end_index : Int)
    (header : CellHeader) (cellid sampleid : Nat)
    (hn3 : 3 ≤ (tokenize row).length)
    (hx : 0 ≤ x_index ∧ x_index < (tokenize row).length) (hxi : IsCInt x_index)
    (hy : 0 ≤ y_index ∧ y_index < (tokenize row).length) (hyi : IsCInt y_index)
    (hs : 0 ≤ start_index ∧ start_index < (tokenize row).length) (hsi : IsCInt start_index)
    (he : 0 ≤ end_index) (hei : IsCInt end_index) :
    ∃ c w, Cell.ofRow tokenize strtof row x_index y_index start_index end_index header cellid
        sampleid = .ok (c, w) ∧
      c.cols = markerFieldsSpec (tokenize row) strtof x_index y_index start_index end_index ∧
      c.x = strtof ((tokenize row).getD x_index.toNat "") ∧
      c.y = strtof ((tokenize row).getD y_index.toNat "") := by
  have ex := toSizeT_of_nonneg hx.1 (by have := hxi.2; omega)
  have ey := toSizeT_of_nonneg hy.1 (by have := hyi.2; omega)
  have es := toSizeT_of_nonneg hs.1 (by have := hsi.2; omega)
  have ee := toSizeT_of_nonneg he (by have := hei.2; omega)
  refine ⟨_, _, ofRow_of_checks _ _ _ _ _ _ _ _ _ _ hn3 (by omega) (by omega) (by omega),
    ?_, by rw [ex], by rw [ey]⟩
  simp only [keptFields, markerFieldsSpec, List.range_eq_range']
  congr 1
  apply List.filter_congr
  intro j _
  rw [ex, ey, es, ee]
  apply Bool.decide_congr
  omega

/-- C5, amended, at a concrete row: `7,1,2,3,4,5` with the marker range `[2, 4]`, `x` at 3 and
`y` at 1 stores the fields at positions 2 and 4. -/
theorem C5_cols_are_marker_fields_witness :
    ∃ c w, Cell.ofRow commaFields strtofNat "7,1,2,3,4,5" 3 1 2 4 ⟨[⟨.MA_TAG, "m1"⟩]⟩ 7 0 =
        .ok (c, w) ∧
      c.cols = markerFieldsSpec (commaFields "7,1,2,3,4,5") strtofNat 3 1 2 4 ∧
      c.x = strtofNat ((commaFields "7,1,2,3,4,5").getD (3 : Int).toNat "") ∧
      c.y = strtofNat ((commaFields "7,1,2,3,4,5").getD (1 : Int).toNat "") :=
  C5_cols_are_marker_fields commaFields strtofNat "7,1,2,3,4,5" 3 1 2 4 ⟨[⟨.MA_TAG, "m1"⟩]⟩ 7 0
    (by decide) (by decide) (by decide) (by decide) (by decide) (by decide) (by decide)
    (by decide) (by decide)

/-- C2: the claim that `cols` never grows beyond the header's declared column count (as the
comment of line 210, "stop with as many columns as are in the header", announces) fails on the
code: for the row `7,1,2,3,4` with the marker range `[3, 4]` and a header declaring one column,
the constructor returns a record whose `cols` has two entries. -/
theorem C2_cols_exceed_header :
    (⟨[⟨.MA_TAG, "m1"⟩]⟩ : CellHeader).GetDataTags.length = 1 ∧
    Cell.ofRow commaFields strtofNat "7,1,2,3,4" 1 2 3 4 ⟨[⟨.MA_TAG, "m1"⟩]⟩ 7 0 =
      .ok ({ id := 7, pflag := 0, cflag := 0, x := 1, y := 2, cols := [3, 4] }, []) := by
  refine ⟨rfl, ?_⟩
  rw [ofRow_of_checks _ _ _ _ _ _ _ _ _ _ (by decide) (by decide) (by decide) (by decide)]
  rfl

/-- C6: the claim that the shortfall warning is emitted exactly when fewer values are stored
than the header declares fails on the code, which compares the loop counter (the field count)
with the declared count: for the row `7,1,2,3,4` with the marker range `[3, 4]` and a header
declaring four columns, two values are stored and nothing is written to `std::cerr`. -/
theorem C6_shortfall_not_reported :
    (⟨[⟨.MA_TAG, "m1"⟩, ⟨.MA_TAG, "m2"⟩, ⟨.MA_TAG, "m3"⟩, ⟨.MA_TAG, "m4"⟩]⟩ :
      CellHeader).GetDataTags.length = 4 ∧
    Cell.ofRow commaFields strtofNat "7,1,2,3,4" 1 2 3 4
        ⟨[⟨.MA_TAG, "m1"⟩, ⟨.MA_TAG, "m2"⟩, ⟨.MA_TAG, "m3"⟩, ⟨.MA_TAG, "m4"⟩]⟩ 7 0 =
      .ok ({ id := 7, pflag := 0, cflag := 0, x := 1, y := 2, cols := [3, 4] }, []) := by
  refine ⟨rfl, ?_⟩
  rw [ofRow_of_checks _ _ _ _ _ _ _ _ _ _ (by decide) (by decide) (by decide) (by decide)]
  rfl

/-! ## Rendering of feature values: theorems -/

/-- C7, as stated, fails: for the fixed-notation text `1.203000` and `round = 2` the function
writes `1.20`, which ends in `'0'` after the decimal point, whereas truncating to two digits and
then stripping trailing zeros gives `1.2`. -/
theorem C7_trailing_zero_kept :
    printWithoutScientific "1.203000".data 2 = .ok "1.20".data ∧
    truncateThenStrip "1".data "203000".data 2 = "1.2".data ∧
    "1.20".data.getLast? = some '0' := by
  refine ⟨rfl, rfl, rfl⟩

/-- C7, amended: for every fixed-notation text `ip ++ "." ++ fs` (no decimal point inside `ip` or
`fs`) and every `round ≥ 0`, the text written by `printWithoutScientific` is the text first
stripped of the trailing zeros of its fractional digits, then truncated to at most `round` digits
after the decimal point, then stripped of a decimal point left with no digits after it; the
written text never ends in `'.'`. -/
theorem C7_strip_then_truncate (ip fs : List Char) (round : Int)
    (hip : '.' ∉ ip) (hfs : '.' ∉ fs) (h0 : 0 ≤ round) (hr : IsCInt round)
    (hlen : ip.length + fs.length < 2 ^ 63) :
    printWithoutScientific (ip ++ '.' :: fs) round = .ok (stripThenTruncate ip fs round.toNat) ∧
    (stripThenTruncate ip fs round.toNat).getLast? ≠ some '.' :=
  ⟨printWithoutScientific_eq ip fs round hip hfs h0 hr hlen,
    stripThenTruncate_getLast ip fs round.toNat hip hfs⟩

/-- C7, amended, at a concrete text: `12.500000` with `round = 0` is written as `12`. -/
theorem C7_strip_then_truncate_witness :
    printWithoutScientific ("12".data ++ '.' :: "500000".data) 0 = .ok "12".data ∧
    "12".data.getLast? ≠ some '.' :=
  C7_strip_then_truncate "12".data "500000".data 0 (by decide) (by decide) (by decide)
    (by decide) (by decide)

/-! ## Rendering of feature values: the value of the written text -/

theorem fracValue_nonneg (ds : List Char) : 0 ≤ fracValue ds := by
  induction ds with
  | nil => simp [fracValue]
  | cons c cs ih =>
    simp only [fracValue]
    positivity

theorem fracValue_append_zeros (ds zs : List Char) (hz : ∀ c ∈ zs, c = '0') :
    fracValue (ds ++ zs) = fracValue ds := by
  induction ds with
  | nil =>
    induction zs with
    | nil => rfl
    | cons z zs ih =>
      have hz0 : z = '0' := hz z (by simp)
      have ih' := ih (fun c hc => hz c (by simp [hc]))
      simp only [List.nil_append] at ih' ⊢
      simp only [fracValue, ih', hz0]
      simp [digitValue, fracValue]
  | cons c cs ih => rw [List.cons_append, fracValue, fracValue, ih]

theorem fracValue_dropTrailingZeros (fs : List Char) :
    fracValue (dropTrailingZeros fs) = fracValue fs := by
  have h := List.takeWhile_append_dropWhile (fun c => c == '0') fs.reverse
  have h2 : fs = dropTrailingZeros fs ++ (fs.reverse.takeWhile (fun c => c == '0')).reverse := by
    have := congrArg List.reverse h
    rw [List.reverse_append, List.reverse_reverse] at this
    exact this.symm
  conv_rhs => rw [h2]
  rw [fracValue_append_zeros]
  intro c hc
  rw [List.mem_reverse] at hc
  have := List.mem_takeWhile_imp hc
  simpa using this

theorem digitValue_le (c : Char) (hc : c.isDigit = true) : digitValue c ≤ 9 := by
  simp only [Char.isDigit, Bool.and_eq_true, decide_eq_true_eq] at hc
  have h2 : c.val.toNat ≤ 57 := UInt32.toNat_le_of_le (by decide) hc.2
  unfold digitValue Char.toNat
  omega

theorem fracValue_take (ds : List Char) (hd : ∀ c ∈ ds, c.isDigit = true) :
    ∀ r : Nat, fracValue (ds.take r) ≤ fracValue ds ∧
      fracValue ds < fracValue (ds.take r) + 1 / 10 ^ r := by
  induction ds with
  | nil => intro r; simp [fracValue]
  | cons c cs ih =>
    intro r
    have hcs : ∀ c ∈ cs, c.isDigit = true := fun a ha => hd a (by simp [ha])
    cases r with
    | zero =>
      have h9 := digitValue_le c (hd c (by simp))
      have h1 := (ih hcs 0).2
      simp only [List.take_zero, fracValue, pow_zero, zero_add] at h1 ⊢
      have h9' : (digitValue c : ℚ) ≤ 9 := by exact_mod_cast h9
      have hn := fracValue_nonneg cs
      constructor
      · positivity
      · norm_num at h1 ⊢
        linarith
    | succ r =>
      obtain ⟨h1, h2⟩ := ih hcs r
      simp only [List.take_succ_cons, fracValue]
      constructor
      · linarith
      · have : (1 : ℚ) / 10 ^ (r + 1) = (1 / 10 ^ r) / 10 := by
          rw [pow_succ]; field_simp
        rw [this]
        linarith

theorem isDigit_ne_point {c : Char} (hc : c.isDigit = true) : c ≠ '.' := by
  intro h; rw [h] at hc; exact absurd hc (by decide)

theorem isDigit_ne_minus {c : Char} (hc : c.isDigit = true) : c ≠ '-' := by
  intro h; rw [h] at hc; exact absurd hc (by decide)

theorem parseUnsigned_point (ds t : List Char) (hds : ∀ c ∈ ds, c.isDigit = true) :
    parseUnsigned (ds ++ '.' :: t) = (intValue ds : ℚ) + fracValue t := by
  have hp : ∀ a ∈ ds, (fun c => c != '.') a = true := by
    intro a ha
    simpa using isDigit_ne_point (hds a ha)
  unfold parseUnsigned
  rw [List.takeWhile_append_of_pos hp, List.dropWhile_append_of_pos hp]
  simp [List.takeWhile_cons, List.dropWhile_cons]

theorem parseUnsigned_digits (ds : List Char) (hds : ∀ c ∈ ds, c.isDigit = true) :
    parseUnsigned ds = (intValue ds : ℚ) := by
  have hp : ∀ a ∈ ds, (fun c => c != '.') a = true := by
    intro a ha
    simpa using isDigit_ne_point (hds a ha)
  unfold parseUnsigned
  rw [List.takeWhile_eq_self_iff.mpr hp, List.dropWhile_eq_nil_iff.mpr hp]
  simp [fracValue]

theorem parseDecimal_signed (neg : Bool) (body : List Char) (hb : body.head? ≠ some '-') :
    parseDecimal ((if neg then ['-'] else []) ++ body) =
      (if neg then -1 else 1) * parseUnsigned body := by
  cases neg with
  | true => simp [parseDecimal]
  | false => simp [parseDecimal, hb]

theorem head?_digits_append (ds tail : List Char) (hds : ∀ c ∈ ds, c.isDigit = true)
    (ht : tail.head? ≠ some '-') : (ds ++ tail).head? ≠ some '-' := by
  cases ds with
  | nil => simpa using ht
  | cons c cs =>
    simp only [List.cons_append, List.head?_cons, ne_eq, Option.some.injEq]
    exact isDigit_ne_minus (hds c (by simp))

/-- Re-parsing the text written by `printWithoutScientific` gives the value of the `%f` text it
was made from up to less than `10 ^ (-round)`. -/
theorem printWithoutScientific_reparse (neg : Bool) (ds fs : List Char) (round : Int)
    (hds : ∀ c ∈ ds, c.isDigit = true) (hfs : ∀ c ∈ fs, c.isDigit = true)
    (h0 : 0 ≤ round) (hr : IsCInt round) (hlen : ds.length + fs.length + 1 < 2 ^ 63) :
    ∃ out, printWithoutScientific (fixedText neg ds fs) round = .ok out ∧
      |parseDecimal out - parseDecimal (fixedText neg ds fs)| < 1 / 10 ^ round.toNat := by
  have hip : '.' ∉ (if neg then ['-'] else []) ++ ds := by
    intro h
    rcases List.mem_append.mp h with h | h
    · cases neg <;> simp at h
    · exact isDigit_ne_point (hds _ h) rfl
  have hfs' : '.' ∉ fs := fun h => isDigit_ne_point (hfs _ h) rfl
  have hl : ((if neg then ['-'] else []) ++ ds).length + fs.length < 2 ^ 63 := by
    cases neg <;> simp <;> omega
  refine ⟨_, printWithoutScientific_eq _ fs round hip hfs' h0 hr hl, ?_⟩
  have hdz : ∀ c ∈ dropTrailingZeros fs, c.isDigit = true := by
    intro c hc
    rw [← dropTrailingZeros_take fs] at hc
    exact hfs c (List.mem_of_mem_take hc)
  obtain ⟨h1, h2⟩ := fracValue_take (dropTrailingZeros fs) hdz round.toNat
  rw [fracValue_dropTrailingZeros] at h1 h2
  have hfull : parseDecimal (fixedText neg ds fs) =
      (if neg then -1 else 1) * ((intValue ds : ℚ) + fracValue fs) := by
    unfold fixedText
    rw [List.append_assoc, parseDecimal_signed _ _ (head?_digits_append _ _ hds (by simp)),
      parseUnsigned_point _ _ hds]
  have hout : parseDecimal (stripThenTruncate ((if neg then ['-'] else []) ++ ds) fs
      round.toNat) = (if neg then -1 else 1) *
        ((intValue ds : ℚ) + fracValue ((dropTrailingZeros fs).take round.toNat)) := by
    unfold stripThenTruncate
    cases ht : List.take round.toNat (dropTrailingZeros fs) with
    | nil =>
      simp only [if_true]
      have := parseDecimal_signed neg (ds ++ []) (head?_digits_append _ _ hds (by simp))
      rw [List.append_nil] at this
      rw [this, parseUnsigned_digits _ hds]
      simp [fracValue]
    | cons a t =>
      have hne : a :: t ≠ [] := by simp
      simp only [hne, if_false]
      rw [List.append_assoc, parseDecimal_signed _ _ (head?_digits_append _ _ hds (by simp)),
        parseUnsigned_point _ _ hds]
  rw [hfull, hout, ← mul_sub, abs_mul]
  have hs : |(if neg then (-1 : ℚ) else 1)| = 1 := by cases neg <;> simp
  rw [hs, one_mul, abs_lt]
  constructor <;> linarith

/-! ## Radial band parameters: theorem -/

/-- C9: `SetParams(inner, outer, logor, logand, label)` succeeds if and only if `inner` is
non-empty and `outer`, `logor`, `logand` and `label` each have the length of `inner`; when it
succeeds the stored band arrays are the five arguments, and otherwise it fails fatally (an
assertion failure) and no band definition is stored. -/
theorem C9_SetParams (p : RadialProcessor) (inner outer logor logand : List Nat)
    (label : List String) :
    p.SetParams inner outer logor logand label =
      if inner ≠ [] ∧ outer.length = inner.length ∧ logor.length = inner.length ∧
          logand.length = inner.length ∧ label.length = inner.length then
        .ok { m_inner := inner, m_outer := outer, m_logor := logor, m_logand := logand,
              m_label := label }
      else .error .assert_failed := by
  unfold RadialProcessor.SetParams
  by_cases h0 : inner.length = 0
  · have : inner = [] := List.length_eq_zero.mp h0
    simp [this]
  · have hne : inner ≠ [] := fun h => h0 (by simp [h])
    by_cases h1 : inner.length = outer.length
    · by_cases h2 : inner.length = logor.length
      · by_cases h3 : inner.length = logand.length
        · by_cases h4 : inner.length = label.length
          · simp [h0, hne, ← h1, ← h2, ← h3, ← h4]
          · have h4' : ¬ label.length = inner.length := fun h => h4 h.symm
            simp [h0, h4, h4', ← h1, ← h2, ← h3]
        · have h3' : ¬ logand.length = inner.length := fun h => h3 h.symm
          simp [h0, h3, h3', ← h1, ← h2]
      · have h2' : ¬ logor.length = inner.length := fun h => h2 h.symm
        simp [h0, h2, h2', ← h1]
    · have h1' : ¬ outer.length = inner.length := fun h => h1 h.symm
      simp [h0, h1, h1']

end Cyftools
